import Mathlib

/-!
# Internal coordinates and the Wilson B-matrix: a verification development

This file embeds the computational content of the notebook
`Tutorials/13_Geometry_Optimization/13a_Internal-Coordinates-Bmatrix.ipynb`:

* the covalent-radius connectivity detector (the `C` matrix cell);
* the automatic stretch/bend catalog builder (the `intcos` cell);
* the eigen-decomposition based generalized inverse `symmMatInv` and the
  gradient transformation `gq = Ginv · B · gx`, `gx2 = Bᵀ · gq`.

Real (floating point) arithmetic is modelled over `ℝ`.  The notebook's helper
modules (`opt_helper.v3d`, `opt_helper.stre`, `opt_helper.bend`,
`opt_helper.covRadii`, `opt_helper.intcosMisc`) are repository code that is not
part of the given sources; the definitions below that stand in for them are
modelled from the specification text and are marked as such.  The external
library routine `np.linalg.eigh` is modelled as an oracle: its output
`(evals, evects)` is passed in explicitly, constrained by the contract
`IsEigenDecomp` (a real symmetric matrix equals `Pᵀ · diag(λ) · P` with `P`
having orthonormal rows).
-/

open Matrix BigOperators

/-! ## Geometry helpers (modelled from the spec) -/

/-- Modelled from the spec: `opt_helper.v3d.dist` (not among the given
sources) is the Euclidean distance between two Cartesian points. -/
noncomputable def v3dDist (a b : Fin 3 → ℝ) : ℝ :=
  Real.sqrt (∑ c : Fin 3, (a c - b c) ^ 2)

/-- Cross product of two 3-vectors, used to express the degeneracy test of the
angle routine. -/
def crossVec (u v : Fin 3 → ℝ) : Fin 3 → ℝ :=
  ![u 1 * v 2 - u 2 * v 1, u 2 * v 0 - u 0 * v 2, u 0 * v 1 - u 1 * v 0]

/-- Modelled from the spec: the success flag of `opt_helper.v3d.angle` (not
among the given sources).  The spec: the angle routine reports a failure
exactly when the three points are degenerate (collinear or with a zero-length
arm), and the bend loop skips the candidate in that case.  The three points
`geom i`, `geom j`, `geom k` (vertex `j`) are non-degenerate iff the two arm
vectors have a nonzero cross product. -/
def angleCheck (geom : ℕ → Fin 3 → ℝ) (i j k : ℕ) : Prop :=
  crossVec (fun c => geom i c - geom j c) (fun c => geom k c - geom j c) ≠ 0

/-- Three atom positions are collinear (this includes a coincident pair, i.e.
a zero-length arm): one arm vector at the vertex `j` is a scalar multiple of
the other. -/
def collinearAt (geom : ℕ → Fin 3 → ℝ) (i j k : ℕ) : Prop :=
  ∃ t : ℝ,
    (∀ c, geom i c - geom j c = t * (geom k c - geom j c)) ∨
    (∀ c, geom k c - geom j c = t * (geom i c - geom j c))

/-! ## Connectivity detector (notebook cell defining `C`) -/

/-- The bond criterion applied by the notebook to an ordered pair `(i, j)`:
`R < 1.3 * Rcov` with `Rcov = (covRadii.R[Z[i]] + covRadii.R[Z[j]]) / 0.52917720859`.
The covalent-radius table `covRadii.R` is repository code not among the given
sources and is modelled from the spec as an abstract table `table` from atomic
number to radius. -/
def bondTest (table : ℕ → ℝ) (Z : ℕ → ℕ) (geom : ℕ → Fin 3 → ℝ) (i j : ℕ) : Prop :=
  v3dDist (geom i) (geom j) < 1.3 * ((table (Z i) + table (Z j)) / 0.52917720859)

/-- The connectivity matrix built by the notebook: starting from all-`False`,
for every combination `i < j < N` passing `bondTest` both `C[i,j]` and
`C[j,i]` are set.  Hence entry `(i, j)` is true iff one of the two ordered
versions of the pair was set by the loop. -/
def Cmat (table : ℕ → ℝ) (Z : ℕ → ℕ) (geom : ℕ → Fin 3 → ℝ) (N : ℕ) (i j : ℕ) : Prop :=
  (i < j ∧ j < N ∧ bondTest table Z geom i j) ∨
  (j < i ∧ i < N ∧ bondTest table Z geom j i)

/-! ## Internal coordinates and the catalog builder (notebook cell defining `intcos`) -/

/-- The tagged internal-coordinate variants of the data model.  The notebook
builds only stretches and bends; the dihedral variant exists in the data model
(and in `opt_helper`) but is never constructed by this program. -/
inductive Intco : Type
  | stre (i j : ℕ)
  | bend (i j k : ℕ)
  | tors (i j k l : ℕ)
  deriving DecidableEq

/-- Modelled from the spec: the coordinate equality rule implemented by the
`__eq__` methods of `opt_helper.stre.STRE` / `opt_helper.bend.BEND` (not among
the given sources).  A stretch is unordered in its two atoms; a bend keeps the
vertex `j` fixed and is unordered in the outer pair `{i, k}`; a dihedral
equals its exact tuple or the full reversal; different variants are never
equal. -/
def icEq : Intco → Intco → Bool
  | .stre i j, .stre a b => (i == a && j == b) || (i == b && j == a)
  | .bend i j k, .bend a b c => j == b && ((i == a && k == c) || (i == c && k == a))
  | .tors i j k l, .tors a b c d =>
      (i == a && j == b && k == c && l == d) || (i == d && j == c && k == b && l == a)
  | _, _ => false

/-- The notebook's insertion idiom `if s not in intcos: intcos.append(s)`:
membership is tested with the coordinate equality rule, and the candidate is
appended at the end only when no existing entry equals it. -/
def addIfNew (xs : List Intco) (c : Intco) : List Intco :=
  if xs.any (fun y => icEq y c) then xs else xs ++ [c]

/-- The pair stream of `itertools.combinations(range(N), 2)`: all `(i, j)`
with `i < j < N`, in lexicographic order. -/
def combPairs (N : ℕ) : List (ℕ × ℕ) :=
  (List.range N).flatMap fun i => ((List.range N).filter fun j => i < j).map fun j => (i, j)

/-- The pair stream of `itertools.permutations(range(N), 2)`: all ordered
`(i, j)` with `i ≠ j`, both below `N`, in lexicographic order. -/
def permPairs (N : ℕ) : List (ℕ × ℕ) :=
  (List.range N).flatMap fun i => ((List.range N).filter fun j => j ≠ i).map fun j => (i, j)

/-- First loop of the catalog cell: a stretch for every bonded combination
`i < j`, deduplicated through `addIfNew`. -/
def buildStretches (N : ℕ) (C : ℕ → ℕ → Prop) [DecidableRel C] : List Intco :=
  (combPairs N).foldl
    (fun ic p => if C p.1 p.2 then addIfNew ic (Intco.stre p.1 p.2) else ic) []

/-- Both loops of the catalog cell: stretches first, then for every
permutation `(i, j)` with `C[i,j]` and every `k` in `range(i+1, N)` with
`C[j,k]`, the bend `BEND(i, j, k)` is added when the angle routine's check
succeeds, deduplicated through `addIfNew`.  The angle check is abstracted as
`ang` (the notebook instantiates it with `v3d.angle` on the geometry). -/
def buildIntcos (N : ℕ) (C : ℕ → ℕ → Prop) [DecidableRel C]
    (ang : ℕ → ℕ → ℕ → Prop) [∀ i j k, Decidable (ang i j k)] : List Intco :=
  (permPairs N).foldl
    (fun ic p =>
      if C p.1 p.2 then
        ((List.range N).filter fun k => p.1 < k).foldl
          (fun ic2 k =>
            if C p.2 k then
              (if ang p.1 p.2 k then addIfNew ic2 (Intco.bend p.1 p.2 k) else ic2)
            else ic2)
          ic
      else ic)
    (buildStretches N C)

/-- Validity of the atom indices of a coordinate for an `N`-atom system: all
referenced indices distinct and below `N`. -/
def icValid (N : ℕ) : Intco → Prop
  | .stre i j => i ≠ j ∧ i < N ∧ j < N
  | .bend i j k => i ≠ j ∧ i ≠ k ∧ j ≠ k ∧ i < N ∧ j < N ∧ k < N
  | .tors i j k l =>
      i ≠ j ∧ i ≠ k ∧ i ≠ l ∧ j ≠ k ∧ j ≠ l ∧ k ≠ l ∧ i < N ∧ j < N ∧ k < N ∧ l < N

/-- Sound characterization of catalog membership: every element was produced
either by the stretch loop or by the bend loop, with the loop-structure facts
about its indices and the guards that let it in. -/
def memSpec (N : ℕ) (C : ℕ → ℕ → Prop) (ang : ℕ → ℕ → ℕ → Prop) (x : Intco) : Prop :=
  (∃ i j, x = Intco.stre i j ∧ i < j ∧ j < N ∧ C i j) ∨
  (∃ i j k, x = Intco.bend i j k ∧ j ≠ i ∧ i < k ∧ i < N ∧ j < N ∧ k < N ∧
    C i j ∧ C j k ∧ ang i j k)

/-! ## Coordinate values and B-matrix rows (modelled from the spec) -/

/-- Modelled from the spec: `STRE.q` — the value of a stretch is the Euclidean
distance between its two atoms. -/
noncomputable def streQ (geom : ℕ → Fin 3 → ℝ) (i j : ℕ) : ℝ :=
  v3dDist (geom i) (geom j)

/-- The arm vector from atom `j` to atom `i`, normalized. -/
noncomputable def unitArm (geom : ℕ → Fin 3 → ℝ) (i j : ℕ) : Fin 3 → ℝ :=
  fun c => (geom i c - geom j c) / v3dDist (geom i) (geom j)

/-- Modelled from the spec: `BEND.q` — the value of a bend is the angle at the
vertex, the inverse cosine of the dot product of the two normalized arms. -/
noncomputable def bendQ (geom : ℕ → Fin 3 → ℝ) (i j k : ℕ) : ℝ :=
  Real.arccos (∑ c : Fin 3, unitArm geom i j c * unitArm geom k j c)

/-- Modelled from the spec: the stretch row of `intcosMisc.Bmat` (not among
the given sources) — for `STRE(i, j)` the entries of atom `i` are the unit
vector from `j` to `i`, the entries of atom `j` its negation, and all other
atoms' entries are zero. -/
noncomputable def streRow (geom : ℕ → Fin 3 → ℝ) (i j : ℕ) (a : ℕ) (c : Fin 3) : ℝ :=
  if a = i then (geom i c - geom j c) / v3dDist (geom i) (geom j)
  else if a = j then (geom j c - geom i c) / v3dDist (geom i) (geom j)
  else 0

/-- Modelled from the spec: the bend row of `intcosMisc.Bmat` — the standard
Wilson s-vectors for `BEND(i, j, k)` with vertex `j`.  Unused by the theorems
below; included so the B-matrix is defined on every coordinate the builder can
emit. -/
noncomputable def bendRow (geom : ℕ → Fin 3 → ℝ) (i j k : ℕ) (a : ℕ) (c : Fin 3) : ℝ :=
  let u := unitArm geom i j
  let v := unitArm geom k j
  let cosphi := ∑ x : Fin 3, u x * v x
  let sinphi := Real.sqrt (1 - cosphi ^ 2)
  let si := fun x => (cosphi * u x - v x) / (v3dDist (geom i) (geom j) * sinphi)
  let sk := fun x => (cosphi * v x - u x) / (v3dDist (geom k) (geom j) * sinphi)
  if a = i then si c
  else if a = j then -si c - sk c
  else if a = k then sk c
  else 0

/-- Modelled from the spec: the torsion row of `intcosMisc.Bmat` — the
standard (Bakken–Helgaker) s-vectors for `DIHEDRAL(i, j, k, l)`; the fourth
atom follows from translational invariance.  Dead in this program: the builder
provably never emits a dihedral. -/
noncomputable def torsRow (geom : ℕ → Fin 3 → ℝ) (i j k l : ℕ) (a : ℕ) (c : Fin 3) : ℝ :=
  let lu := v3dDist (geom i) (geom j)
  let lw := v3dDist (geom k) (geom j)
  let lv := v3dDist (geom l) (geom k)
  let u := unitArm geom i j
  let w := unitArm geom k j
  let v := unitArm geom l k
  let cosu := ∑ x : Fin 3, u x * w x
  let sin2u := 1 - cosu ^ 2
  let cosv := -∑ x : Fin 3, v x * w x
  let sin2v := 1 - cosv ^ 2
  let si := fun x => -(crossVec u w x) / (lu * sin2u)
  let sl := fun x => (crossVec v w x) / (lv * sin2v)
  let sj := fun x =>
    ((lw - lu * cosu) / (lu * lw * sin2u)) * crossVec u w x -
      (cosv / (lw * sin2v)) * crossVec v w x
  if a = i then si c
  else if a = j then sj c
  else if a = l then sl c
  else if a = k then -si c - sj c - sl c
  else 0

/-- The B-matrix row of one internal coordinate, by variant. -/
noncomputable def rowOf (geom : ℕ → Fin 3 → ℝ) : Intco → ℕ → Fin 3 → ℝ
  | .stre i j => streRow geom i j
  | .bend i j k => bendRow geom i j k
  | .tors i j k l => torsRow geom i j k l

/-- Modelled from the spec: `intcosMisc.Bmat` — one row per catalog entry,
one column per Cartesian component `(atom, axis)`. -/
noncomputable def Bmat (geom : ℕ → Fin 3 → ℝ) (cat : List Intco) :
    Fin cat.length → ℕ → Fin 3 → ℝ :=
  fun p => rowOf geom (cat.get p)

/-! ## The generalized inverse and the gradient transform (notebook cells) -/

/-- The eigenvalue magnitude threshold of `symmMatInv`. -/
noncomputable def invThresh : ℝ := 1e-10

/-- The `diagInv` matrix of the notebook's `symmMatInv`: zero except on the
diagonal, where eigenvalue `i` contributes `1 / evals[i]` exactly when
`abs(evals[i]) > 1.0e-10`, and `0` otherwise. -/
noncomputable def diagInv {d : ℕ} (evals : Fin d → ℝ) : Matrix (Fin d) (Fin d) ℝ :=
  Matrix.diagonal fun i => if invThresh < |evals i| then (evals i)⁻¹ else 0

/-- The notebook's `symmMatInv`, with the external `np.linalg.eigh` call
hoisted to parameters: `P` is the source's `evects` after its `evects =
evects.T` line (rows are eigenvectors), and the return value is the source's
`AInv = np.dot(evects.T, np.dot(diagInv, evects))`.  (The source also folds
the eigenvalues into a local `det` variable it never uses; that dead code is
omitted.) -/
noncomputable def symmMatInv {d : ℕ} (evals : Fin d → ℝ) (P : Matrix (Fin d) (Fin d) ℝ) :
    Matrix (Fin d) (Fin d) ℝ :=
  Pᵀ * (diagInv evals * P)

/-- The contract of `np.linalg.eigh` on a real symmetric matrix, as used by
`symmMatInv` after transposing `evects`: `A = Pᵀ · diag(evals) · P` with the
rows of `P` orthonormal. -/
def IsEigenDecomp {d : ℕ} (A : Matrix (Fin d) (Fin d) ℝ) (evals : Fin d → ℝ)
    (P : Matrix (Fin d) (Fin d) ℝ) : Prop :=
  A = Pᵀ * Matrix.diagonal evals * P ∧ P * Pᵀ = 1 ∧ Pᵀ * P = 1

/-- The notebook's forward gradient transform: `temp_arr = np.dot(B, gx)`,
then `gq = np.dot(Ginv, temp_arr)` with `Ginv = symmMatInv(np.dot(B, B.T))`.
The eigenpairs of `G = B·Bᵀ` are passed explicitly (see `symmMatInv`). -/
noncomputable def gq {n m : ℕ} (B : Matrix (Fin n) (Fin m) ℝ) (evals : Fin n → ℝ)
    (P : Matrix (Fin n) (Fin n) ℝ) (gx : Fin m → ℝ) : Fin n → ℝ :=
  symmMatInv evals P *ᵥ (B *ᵥ gx)

/-- The general weighted transform displayed in the notebook's derivation:
`g_q = (B·u·Bᵀ)⁻¹ · B · u · g_x`, the generalized inverse again supplied by
`symmMatInv` on eigenpairs of `B·u·Bᵀ`.  The implemented transform is this
formula at the identity weighting `u = 1`. -/
noncomputable def gqWeighted {n m : ℕ} (B : Matrix (Fin n) (Fin m) ℝ)
    (u : Matrix (Fin m) (Fin m) ℝ) (evals : Fin n → ℝ)
    (P : Matrix (Fin n) (Fin n) ℝ) (gx : Fin m → ℝ) : Fin n → ℝ :=
  symmMatInv evals P *ᵥ ((B * u) *ᵥ gx)

/-- The notebook's reverse transform: `gx2 = np.dot(B.T, gq)`. -/
noncomputable def gx2 {n m : ℕ} (B : Matrix (Fin n) (Fin m) ℝ) (evals : Fin n → ℝ)
    (P : Matrix (Fin n) (Fin n) ℝ) (gx : Fin m → ℝ) : Fin m → ℝ :=
  Bᵀ *ᵥ gq B evals P gx

/-! ## Concrete instances used by the witnesses -/

/-- A two-atom connectivity relation: atoms 0 and 1 bonded. -/
def Cpair (i j : ℕ) : Prop := (i = 0 ∧ j = 1) ∨ (i = 1 ∧ j = 0)

instance : DecidableRel Cpair := fun i j => by unfold Cpair; infer_instance

/-- A trivially succeeding angle check (for witnesses that only exercise the
stretch loop). -/
def angAll (i j k : ℕ) : Prop := i = i ∧ j = j ∧ k = k

instance : ∀ i j k, Decidable (angAll i j k) := fun i j k => by unfold angAll; infer_instance

/-- Complete-graph connectivity on the atom indices (used by a witness). -/
def Cfull (i j : ℕ) : Prop := i ≠ j

instance : DecidableRel Cfull := fun i j => by unfold Cfull; infer_instance

/-- Three atoms evenly spaced on the x-axis: a collinear geometry. -/
noncomputable def gLin : ℕ → Fin 3 → ℝ := fun n => ![(n : ℝ), 0, 0]

/-- The hydrogen diatomic of the notebook's scenario, placed on the x-axis
with bond length 0.8. -/
noncomputable def geomH2 : ℕ → Fin 3 → ℝ := fun n => ![0.8 * (n : ℝ), 0, 0]

/-- Duplicate-freedom of a catalog under the coordinate equality rule. -/
def distinctIC (l : List Intco) : Prop :=
  l.Pairwise fun a b => icEq a b = false

/-! ## Catalog builder lemmas -/

theorem foldl_inv {α β : Type} (f : β → α → β) (Q : β → Prop) :
    ∀ (l : List α) (b : β), Q b → (∀ x a, a ∈ l → Q x → Q (f x a)) →
      Q (l.foldl f b) := by
  intro l
  induction l with
  | nil => intro b hb _; exact hb
  | cons hd tl ih =>
      intro b hb hf
      exact ih (f b hd) (hf b hd (by simp) hb)
        (fun x a ha hx => hf x a (by simp [ha]) hx)

theorem mem_addIfNew {xs : List Intco} {c x : Intco} (h : x ∈ addIfNew xs c) :
    x ∈ xs ∨ x = c := by
  by_cases hany : xs.any (fun y => icEq y c) = true
  · rw [addIfNew, if_pos hany] at h; exact Or.inl h
  · rw [addIfNew, if_neg hany] at h
    rcases List.mem_append.mp h with h' | h'
    · exact Or.inl h'
    · exact Or.inr (List.mem_singleton.mp h')

theorem addIfNew_pairwise {xs : List Intco} {c : Intco} (h : distinctIC xs) :
    distinctIC (addIfNew xs c) := by
  by_cases hany : xs.any (fun y => icEq y c) = true
  · rw [distinctIC, addIfNew, if_pos hany]; exact h
  · rw [distinctIC, addIfNew, if_neg hany, List.pairwise_append]
    refine ⟨h, List.pairwise_singleton _ _, ?_⟩
    intro a ha b hb
    rw [List.mem_singleton] at hb
    cases hEq : icEq a b
    · rfl
    · rw [hb] at hEq
      exact absurd (List.any_eq_true.mpr ⟨a, ha, hEq⟩) hany

theorem combPairs_mem {N i j : ℕ} (h : (i, j) ∈ combPairs N) : i < j ∧ j < N := by
  simp only [combPairs, List.mem_flatMap, List.mem_map, List.mem_filter,
    List.mem_range, decide_eq_true_eq] at h
  obtain ⟨a, _, b, ⟨hbN, hab⟩, hpair⟩ := h
  obtain ⟨rfl, rfl⟩ := Prod.mk.injEq .. ▸ hpair
  exact ⟨hab, hbN⟩

theorem permPairs_mem {N i j : ℕ} (h : (i, j) ∈ permPairs N) :
    i < N ∧ j < N ∧ j ≠ i := by
  simp only [permPairs, List.mem_flatMap, List.mem_map, List.mem_filter,
    List.mem_range, decide_eq_true_eq] at h
  obtain ⟨a, haN, b, ⟨hbN, hab⟩, hpair⟩ := h
  obtain ⟨rfl, rfl⟩ := Prod.mk.injEq .. ▸ hpair
  exact ⟨haN, hbN, hab⟩

theorem buildStretches_mem (N : ℕ) (C : ℕ → ℕ → Prop) [DecidableRel C]
    (ang : ℕ → ℕ → ℕ → Prop) :
    ∀ x ∈ buildStretches N C, memSpec N C ang x := by
  refine foldl_inv _ (fun ic => ∀ x ∈ ic, memSpec N C ang x) _ _ (by simp) ?_
  intro ic p hp hic x hx
  by_cases hC : C p.1 p.2
  · rw [if_pos hC] at hx
    rcases mem_addIfNew hx with h' | h'
    · exact hic x h'
    · obtain ⟨h1, h2⟩ := combPairs_mem (show (p.1, p.2) ∈ combPairs N from hp)
      exact Or.inl ⟨p.1, p.2, h', h1, h2, hC⟩
  · rw [if_neg hC] at hx
    exact hic x hx

theorem buildIntcos_mem (N : ℕ) (C : ℕ → ℕ → Prop) [DecidableRel C]
    (ang : ℕ → ℕ → ℕ → Prop) [∀ i j k, Decidable (ang i j k)] :
    ∀ x ∈ buildIntcos N C ang, memSpec N C ang x := by
  refine foldl_inv _ (fun ic => ∀ x ∈ ic, memSpec N C ang x) _ _
    (buildStretches_mem N C ang) ?_
  intro ic p hp hic x hx
  by_cases hC : C p.1 p.2
  · rw [if_pos hC] at hx
    obtain ⟨hiN, hjN, hji⟩ := permPairs_mem (show (p.1, p.2) ∈ permPairs N from hp)
    revert hx
    refine foldl_inv _ (fun ic2 => ∀ y ∈ ic2, memSpec N C ang y) _ _ hic ?_ x
    intro ic2 k hk hic2 y hy
    have hkmem : k < N ∧ p.1 < k := by
      simp only [List.mem_filter, List.mem_range, decide_eq_true_eq] at hk
      exact hk
    by_cases hC2 : C p.2 k
    · rw [if_pos hC2] at hy
      by_cases hang : ang p.1 p.2 k
      · rw [if_pos hang] at hy
        rcases mem_addIfNew hy with h' | h'
        · exact hic2 y h'
        · exact Or.inr ⟨p.1, p.2, k, h', hji, hkmem.2, hiN, hjN, hkmem.1, hC, hC2, hang⟩
      · rw [if_neg hang] at hy
        exact hic2 y hy
    · rw [if_neg hC2] at hy
      exact hic2 y hy
  · rw [if_neg hC] at hx
    exact hic x hx

theorem buildIntcos_pairwise (N : ℕ) (C : ℕ → ℕ → Prop) [DecidableRel C]
    (ang : ℕ → ℕ → ℕ → Prop) [∀ i j k, Decidable (ang i j k)] :
    distinctIC (buildIntcos N C ang) := by
  have hbase : distinctIC (buildStretches N C) := by
    refine foldl_inv _ distinctIC _ _ (List.Pairwise.nil) ?_
    intro x p _ hx
    by_cases hC : C p.1 p.2
    · rw [if_pos hC]; exact addIfNew_pairwise hx
    · rw [if_neg hC]; exact hx
  refine foldl_inv _ distinctIC _ _ hbase ?_
  intro x p _ hx
  by_cases hC : C p.1 p.2
  · rw [if_pos hC]
    refine foldl_inv _ distinctIC _ _ hx ?_
    intro y k _ hy
    by_cases hC2 : C p.2 k
    · rw [if_pos hC2]
      by_cases hang : ang p.1 p.2 k
      · rw [if_pos hang]; exact addIfNew_pairwise hy
      · rw [if_neg hang]; exact hy
    · rw [if_neg hC2]; exact hy
  · rw [if_neg hC]; exact hx

theorem crossVec_eq_zero_left {u v : Fin 3 → ℝ} {t : ℝ} (h : ∀ c, u c = t * v c) :
    crossVec u v = 0 := by
  funext c
  fin_cases c <;> simp [crossVec, h 0, h 1, h 2] <;> ring

theorem crossVec_eq_zero_right {u v : Fin 3 → ℝ} {t : ℝ} (h : ∀ c, v c = t * u c) :
    crossVec u v = 0 := by
  funext c
  fin_cases c <;> simp [crossVec, h 0, h 1, h 2] <;> ring

theorem collinear_not_angleCheck {geom : ℕ → Fin 3 → ℝ} {i j k : ℕ}
    (h : collinearAt geom i j k) : ¬ angleCheck geom i j k := by
  obtain ⟨t, h | h⟩ := h
  · exact fun hne => hne (crossVec_eq_zero_left h)
  · exact fun hne => hne (crossVec_eq_zero_right h)

/-- C5: for every connectivity relation (symmetric-boolean with false
diagonal, here: irreflexive), the catalog built by the two loops is
duplicate-free under the coordinate equality rule, every entry has distinct
atom indices all within `[0, N)`, and the insertion primitive preserves order:
a candidate equal to an existing entry leaves the list unchanged, otherwise it
is appended at the end after the membership test rejects every entry. -/
theorem catalog_invariants (N : ℕ) (C : ℕ → ℕ → Prop) [DecidableRel C]
    (ang : ℕ → ℕ → ℕ → Prop) [∀ i j k, Decidable (ang i j k)]
    (hirr : ∀ i, ¬ C i i) :
    distinctIC (buildIntcos N C ang) ∧
    (∀ x ∈ buildIntcos N C ang, icValid N x) ∧
    (∀ (xs : List Intco) (c : Intco),
      ((∃ y ∈ xs, icEq y c = true) → addIfNew xs c = xs) ∧
      ((∀ y ∈ xs, icEq y c = false) → addIfNew xs c = xs ++ [c])) := by
  refine ⟨buildIntcos_pairwise N C ang, ?_, ?_⟩
  · intro x hx
    rcases buildIntcos_mem N C ang x hx with
      ⟨i, j, rfl, hij, hjN, _⟩ | ⟨i, j, k, rfl, hji, hik, hiN, hjN, hkN, _, hCjk, _⟩
    · exact ⟨Nat.ne_of_lt hij, lt_trans hij hjN, hjN⟩
    · exact ⟨fun h => hji h.symm, Nat.ne_of_lt hik,
        fun h => hirr k (h ▸ hCjk), hiN, hjN, hkN⟩
  · intro xs c
    constructor
    · rintro ⟨y, hy, hEq⟩
      rw [addIfNew, if_pos (List.any_eq_true.mpr ⟨y, hy, hEq⟩)]
    · intro hall
      have hnot : ¬ xs.any (fun y => icEq y c) = true := by
        intro hany
        obtain ⟨y, hy, h⟩ := List.any_eq_true.mp hany
        rw [hall y hy] at h
        exact absurd h (by simp)
      rw [addIfNew, if_neg hnot]

/-- Witness for C5 at a concrete two-atom relation. -/
theorem catalog_invariants_witness :
    (∀ i, ¬ Cpair i i) ∧ distinctIC (buildIntcos 2 Cpair angAll) := by
  have hirr : ∀ i, ¬ Cpair i i := by
    intro i h
    rcases h with ⟨h1, h2⟩ | ⟨h1, h2⟩ <;> omega
  exact ⟨hirr, (catalog_invariants 2 Cpair angAll hirr).1⟩

/-- C10: the builder emits only stretches and bends; no dihedral coordinate is
ever constructed, whatever the geometry and connectivity. -/
theorem catalog_no_dihedral (N : ℕ) (C : ℕ → ℕ → Prop) [DecidableRel C]
    (ang : ℕ → ℕ → ℕ → Prop) [∀ i j k, Decidable (ang i j k)] :
    ∀ x ∈ buildIntcos N C ang,
      (∃ i j, x = Intco.stre i j) ∨ (∃ i j k, x = Intco.bend i j k) := by
  intro x hx
  rcases buildIntcos_mem N C ang x hx with ⟨i, j, h, _⟩ | ⟨i, j, k, h, _⟩
  · exact Or.inl ⟨i, j, h⟩
  · exact Or.inr ⟨i, j, k, h⟩

/-- Witness for C10 on a concrete two-atom catalog. -/
theorem catalog_no_dihedral_witness :
    Intco.stre 0 1 ∈ buildIntcos 2 Cpair angAll ∧
    ((∃ i j, Intco.stre 0 1 = Intco.stre i j) ∨
      (∃ i j k, Intco.stre 0 1 = Intco.bend i j k)) := by
  have hmem : Intco.stre 0 1 ∈ buildIntcos 2 Cpair angAll := by decide
  exact ⟨hmem, catalog_no_dihedral 2 Cpair angAll _ hmem⟩

/-- C6: a bend candidate whose three points are collinear (including a
zero-length arm) fails the angle routine's check and is skipped silently, so
three collinear atoms never yield a Bend coordinate in the catalog. -/
theorem collinear_no_bend (N : ℕ) (geom : ℕ → Fin 3 → ℝ) (C : ℕ → ℕ → Prop)
    [DecidableRel C] [∀ a b c, Decidable (angleCheck geom a b c)] (i j k : ℕ)
    (hcol : collinearAt geom i j k) :
    Intco.bend i j k ∉ buildIntcos N C (angleCheck geom) := by
  intro hmem
  rcases buildIntcos_mem N C (angleCheck geom) _ hmem with
    ⟨a, b, h, _⟩ | ⟨a, b, c, h, _, _, _, _, _, _, _, hang⟩
  · exact Intco.noConfusion h
  · injection h with h1 h2 h3
    subst h1; subst h2; subst h3
    exact collinear_not_angleCheck hcol hang

open Classical in
/-- Witness for C6: three atoms on the x-axis, the middle one the vertex. -/
theorem collinear_no_bend_witness :
    collinearAt gLin 0 1 2 ∧
    Intco.bend 0 1 2 ∉ buildIntcos 3 Cfull (angleCheck gLin) := by
  have hcol : collinearAt gLin 0 1 2 := by
    refine ⟨-1, Or.inl fun c => ?_⟩
    fin_cases c <;> norm_num [gLin]
  exact ⟨hcol, collinear_no_bend 3 gLin Cfull 0 1 2 hcol⟩

/-! ## Connectivity detector: C3 -/

theorem v3dDist_comm (a b : Fin 3 → ℝ) : v3dDist a b = v3dDist b a := by
  unfold v3dDist
  congr 1
  refine Finset.sum_congr rfl fun c _ => ?_
  ring

/-- C3: the detector marks distinct atoms bonded iff their distance is below
`1.3` times the covalent-radius sum converted by `0.52917720859`; the
resulting relation is symmetric with a false diagonal. -/
theorem connectivity_spec (table : ℕ → ℝ) (Z : ℕ → ℕ) (geom : ℕ → Fin 3 → ℝ) (N : ℕ) :
    (∀ i, ¬ Cmat table Z geom N i i) ∧
    (∀ i j, Cmat table Z geom N i j ↔ Cmat table Z geom N j i) ∧
    (∀ i j, i ≠ j → i < N → j < N →
      (Cmat table Z geom N i j ↔
        v3dDist (geom i) (geom j) <
          1.3 * ((table (Z i) + table (Z j)) / 0.52917720859))) := by
  refine ⟨?_, ?_, ?_⟩
  · intro i h
    rcases h with ⟨h1, _⟩ | ⟨h1, _⟩ <;> exact lt_irrefl i h1
  · intro i j
    unfold Cmat
    exact or_comm
  · intro i j hne hiN hjN
    rcases Nat.lt_or_ge i j with hij | hge
    · constructor
      · rintro (⟨_, _, h⟩ | ⟨h1, _, _⟩)
        · exact h
        · omega
      · intro h
        exact Or.inl ⟨hij, hjN, h⟩
    · have hji : j < i := by omega
      constructor
      · rintro (⟨h1, _, _⟩ | ⟨_, _, h⟩)
        · omega
        · unfold bondTest at h
          rw [v3dDist_comm (geom j) (geom i), add_comm (table (Z j)) (table (Z i))] at h
          exact h
      · intro h
        refine Or.inr ⟨hji, hiN, ?_⟩
        unfold bondTest
        rw [v3dDist_comm (geom j) (geom i), add_comm (table (Z j)) (table (Z i))]
        exact h

/-- Witness for C3 at a concrete pair of distinct atoms, with a constant
radius table. -/
theorem connectivity_spec_witness :
    ((0 : ℕ) ≠ 1) ∧
    (Cmat (fun _ => 1) (fun _ => 1) gLin 2 0 1 ↔
      v3dDist (gLin 0) (gLin 1) < 1.3 * (((1 : ℝ) + 1) / 0.52917720859)) := by
  refine ⟨by decide, ?_⟩
  exact (connectivity_spec (fun _ => 1) (fun _ => 1) gLin 2).2.2 0 1
    (by decide) (by decide) (by decide)

/-! ## Generalized inverse and gradient transform: C1, C2, C7 -/

theorem ne_zero_of_thresh_lt {x : ℝ} (h : invThresh < |x|) : x ≠ 0 := by
  intro h0
  rw [h0, abs_zero] at h
  have hpos : (0 : ℝ) < invThresh := by unfold invThresh; norm_num
  linarith

theorem diagInv_mul_diagonal {d : ℕ} (evals : Fin d → ℝ) :
    diagInv evals * Matrix.diagonal evals =
      Matrix.diagonal fun i => if invThresh < |evals i| then (1 : ℝ) else 0 := by
  unfold diagInv
  rw [Matrix.diagonal_mul_diagonal]
  refine congrArg Matrix.diagonal (funext fun i => ?_)
  by_cases h : invThresh < |evals i|
  · rw [if_pos h, if_pos h]
    exact inv_mul_cancel₀ (ne_zero_of_thresh_lt h)
  · rw [if_neg h, if_neg h, zero_mul]

theorem diagonal_mul_diagInv {d : ℕ} (evals : Fin d → ℝ) :
    Matrix.diagonal evals * diagInv evals =
      Matrix.diagonal fun i => if invThresh < |evals i| then (1 : ℝ) else 0 := by
  unfold diagInv
  rw [Matrix.diagonal_mul_diagonal]
  refine congrArg Matrix.diagonal (funext fun i => ?_)
  by_cases h : invThresh < |evals i|
  · rw [if_pos h, if_pos h]
    exact mul_inv_cancel₀ (ne_zero_of_thresh_lt h)
  · rw [if_neg h, if_neg h, mul_zero]

theorem symmMatInv_symm {d : ℕ} (evals : Fin d → ℝ) (P : Matrix (Fin d) (Fin d) ℝ) :
    (symmMatInv evals P)ᵀ = symmMatInv evals P := by
  unfold symmMatInv diagInv
  rw [Matrix.transpose_mul, Matrix.transpose_mul, Matrix.transpose_transpose,
    Matrix.diagonal_transpose, Matrix.mul_assoc]

/-- C2: the generalized inverse solver returns `Pᵀ · diag(λ⁻¹) · P`, where the
diagonal holds `1/λᵢ` exactly when `|λᵢ| > 1e-10` and `0` otherwise; the
result is symmetric, and is a two-sided exact inverse when every eigenvalue
magnitude is above the threshold. -/
theorem symmMatInv_spec {d : ℕ} (A : Matrix (Fin d) (Fin d) ℝ) (evals : Fin d → ℝ)
    (P : Matrix (Fin d) (Fin d) ℝ) (hdec : IsEigenDecomp A evals P) :
    symmMatInv evals P = Pᵀ * diagInv evals * P ∧
    (symmMatInv evals P)ᵀ = symmMatInv evals P ∧
    ((∀ i, invThresh < |evals i|) →
      symmMatInv evals P * A = 1 ∧ A * symmMatInv evals P = 1) := by
  obtain ⟨hA, hPPt, hPtP⟩ := hdec
  refine ⟨(Matrix.mul_assoc _ _ _).symm, symmMatInv_symm evals P, fun hfull => ⟨?_, ?_⟩⟩
  · rw [hA]
    unfold symmMatInv
    simp only [Matrix.mul_assoc]
    rw [← Matrix.mul_assoc P Pᵀ (Matrix.diagonal evals * P), hPPt, Matrix.one_mul,
      ← Matrix.mul_assoc (diagInv evals) (Matrix.diagonal evals) P, diagInv_mul_diagonal]
    have hones : (fun i => if invThresh < |evals i| then (1 : ℝ) else 0) = fun _ => (1 : ℝ) :=
      funext fun i => if_pos (hfull i)
    rw [hones, Matrix.diagonal_one, Matrix.one_mul, hPtP]
  · rw [hA]
    unfold symmMatInv
    simp only [Matrix.mul_assoc]
    rw [← Matrix.mul_assoc P Pᵀ (diagInv evals * P), hPPt, Matrix.one_mul,
      ← Matrix.mul_assoc (Matrix.diagonal evals) (diagInv evals) P, diagonal_mul_diagInv]
    have hones : (fun i => if invThresh < |evals i| then (1 : ℝ) else 0) = fun _ => (1 : ℝ) :=
      funext fun i => if_pos (hfull i)
    rw [hones, Matrix.diagonal_one, Matrix.one_mul, hPtP]

/-- Witness for C2 on the 1×1 matrix `[[2]]` with the trivial eigensystem. -/
theorem symmMatInv_spec_witness :
    IsEigenDecomp !![(2 : ℝ)] ![2] (1 : Matrix (Fin 1) (Fin 1) ℝ) ∧
    symmMatInv ![2] (1 : Matrix (Fin 1) (Fin 1) ℝ) * !![(2 : ℝ)] = 1 := by
  have hdec : IsEigenDecomp !![(2 : ℝ)] ![2] (1 : Matrix (Fin 1) (Fin 1) ℝ) := by
    refine ⟨?_, by simp, by simp⟩
    rw [Matrix.transpose_one, Matrix.one_mul, Matrix.mul_one]
    ext i j
    fin_cases i
    fin_cases j
    simp [Matrix.diagonal]
  have hfull : ∀ i : Fin 1, invThresh < |(![2] : Fin 1 → ℝ) i| := by
    intro i
    have h2 : (![2] : Fin 1 → ℝ) i = 2 := by
      fin_cases i
      rfl
    rw [h2]
    unfold invThresh
    norm_num
  exact ⟨hdec, ((symmMatInv_spec _ _ _ hdec).2.2 hfull).1⟩

/-- C1: the forward gradient transform computes `gq = Ginv · (B · gx)`, which
is the general weighted formula `(B·u·Bᵀ)⁻¹ · (B·u) · gx` at the identity
weighting `u = 1` (no other weighting enters), with `Ginv` the generalized
inverse of `G = B · Bᵀ` supplied by the solver. -/
theorem gradient_transform_spec {n m : ℕ} (B : Matrix (Fin n) (Fin m) ℝ)
    (evals : Fin n → ℝ) (P : Matrix (Fin n) (Fin n) ℝ) (gx : Fin m → ℝ)
    (_hdec : IsEigenDecomp (B * (1 : Matrix (Fin m) (Fin m) ℝ) * Bᵀ) evals P) :
    gq B evals P gx = gqWeighted B 1 evals P gx ∧
    B * (1 : Matrix (Fin m) (Fin m) ℝ) * Bᵀ = B * Bᵀ ∧
    gq B evals P gx = (symmMatInv evals P * B) *ᵥ gx := by
  refine ⟨?_, by rw [Matrix.mul_one], ?_⟩
  · unfold gq gqWeighted
    rw [Matrix.mul_one]
  · unfold gq
    rw [Matrix.mulVec_mulVec]

/-- Witness for C1 on a concrete 1-internal, 3-Cartesian system. -/
theorem gradient_transform_spec_witness :
    gq !![(1 : ℝ), 0, 0] ![1] 1 ![1, 0, 0] =
      gqWeighted !![(1 : ℝ), 0, 0] 1 ![1] 1 ![1, 0, 0] := by
  have hdec : IsEigenDecomp
      (!![(1 : ℝ), 0, 0] * (1 : Matrix (Fin 3) (Fin 3) ℝ) * (!![(1 : ℝ), 0, 0])ᵀ) ![1] 1 := by
    refine ⟨?_, by simp, by simp⟩
    rw [Matrix.transpose_one, Matrix.one_mul, Matrix.mul_one, Matrix.mul_one]
    ext i j
    fin_cases i
    fin_cases j
    simp [Matrix.mul_apply, Matrix.transpose_apply, Fin.sum_univ_three, Matrix.diagonal,
      Matrix.vecHead, Matrix.vecTail]
  exact (gradient_transform_spec _ _ _ _ hdec).1

/-- C7: the solver is total on singular symmetric input: a diagonal entry is
inverted only under the guard `|λᵢ| > 1e-10` (so the inverted eigenvalue is
provably nonzero and a genuine inverse), entries failing the guard contribute
an exact `0`, and the transform still produces the internal gradient as the
same total composition, one component per internal coordinate. -/
theorem transform_total_on_singular {n m : ℕ} (B : Matrix (Fin n) (Fin m) ℝ)
    (evals : Fin n → ℝ) (P : Matrix (Fin n) (Fin n) ℝ) (gx : Fin m → ℝ)
    (_hdec : IsEigenDecomp (B * Bᵀ) evals P) (_hsing : ∃ i, evals i = 0) :
    (∀ i, ¬ invThresh < |evals i| → diagInv evals i i = 0) ∧
    (∀ i, invThresh < |evals i| → evals i ≠ 0 ∧ diagInv evals i i * evals i = 1) ∧
    gq B evals P gx = (symmMatInv evals P * B) *ᵥ gx := by
  refine ⟨?_, ?_, ?_⟩
  · intro i h
    unfold diagInv
    rw [Matrix.diagonal_apply_eq, if_neg h]
  · intro i h
    refine ⟨ne_zero_of_thresh_lt h, ?_⟩
    unfold diagInv
    rw [Matrix.diagonal_apply_eq, if_pos h]
    exact inv_mul_cancel₀ (ne_zero_of_thresh_lt h)
  · unfold gq
    rw [Matrix.mulVec_mulVec]

/-- Witness for C7 on a rank-deficient 2-internal system (`G = diag(1, 0)`). -/
theorem transform_total_on_singular_witness :
    (∃ i : Fin 2, (![1, 0] : Fin 2 → ℝ) i = 0) ∧
    gq !![(1 : ℝ), 0, 0; 0, 0, 0] ![1, 0] 1 ![1, 0, 0] =
      (symmMatInv ![1, 0] 1 * !![(1 : ℝ), 0, 0; 0, 0, 0]) *ᵥ ![1, 0, 0] := by
  have hsing : ∃ i : Fin 2, (![1, 0] : Fin 2 → ℝ) i = 0 := ⟨1, by simp⟩
  have hdec : IsEigenDecomp (!![(1 : ℝ), 0, 0; 0, 0, 0] * (!![(1 : ℝ), 0, 0; 0, 0, 0])ᵀ)
      ![1, 0] 1 := by
    refine ⟨?_, by simp, by simp⟩
    rw [Matrix.transpose_one, Matrix.one_mul, Matrix.mul_one]
    ext i j
    fin_cases i <;> fin_cases j <;>
      simp [Matrix.mul_apply, Matrix.transpose_apply, Fin.sum_univ_three, Matrix.diagonal,
        Matrix.vecHead, Matrix.vecTail]
  exact ⟨hsing, (transform_total_on_singular _ _ _ _ hdec hsing).2.2⟩

/-! ## The reverse transform and the projection property: C4 -/

theorem mul_collapse {n : ℕ} {P : Matrix (Fin n) (Fin n) ℝ} (hPPt : P * Pᵀ = 1)
    {k : ℕ} (X : Matrix (Fin n) (Fin k) ℝ) : P * (Pᵀ * X) = X := by
  rw [← Matrix.mul_assoc, hPPt, Matrix.one_mul]

theorem diag_chain {d : ℕ} (evals : Fin d → ℝ)
    (hgap : ∀ i, evals i = 0 ∨ invThresh < |evals i|) :
    Matrix.diagonal evals * (diagInv evals * Matrix.diagonal evals) =
      Matrix.diagonal evals := by
  rw [diagInv_mul_diagonal, Matrix.diagonal_mul_diagonal]
  refine congrArg Matrix.diagonal (funext fun i => ?_)
  rcases hgap i with h0 | h
  · rw [h0, zero_mul]
  · rw [if_pos h, mul_one]

theorem G_Ginv_G {n m : ℕ} (B : Matrix (Fin n) (Fin m) ℝ) {evals : Fin n → ℝ}
    {P : Matrix (Fin n) (Fin n) ℝ} (hdec : IsEigenDecomp (B * Bᵀ) evals P)
    (hgap : ∀ i, evals i = 0 ∨ invThresh < |evals i|) :
    (B * Bᵀ) * (symmMatInv evals P * (B * Bᵀ)) = B * Bᵀ := by
  obtain ⟨hA, hPPt, _⟩ := hdec
  rw [hA]
  unfold symmMatInv
  simp only [Matrix.mul_assoc]
  rw [mul_collapse hPPt, mul_collapse hPPt,
    ← Matrix.mul_assoc (diagInv evals) (Matrix.diagonal evals) P,
    ← Matrix.mul_assoc (Matrix.diagonal evals) (diagInv evals * Matrix.diagonal evals) P,
    diag_chain evals hgap]

theorem self_mul_transpose_zero {m k : ℕ} (X : Matrix (Fin m) (Fin k) ℝ)
    (h : X * Xᵀ = 0) : X = 0 := by
  have h2 : X * Xᴴ = 0 := by
    rw [Matrix.conjTranspose_eq_transpose_of_trivial]
    exact h
  exact Matrix.self_mul_conjTranspose_eq_zero.mp h2

/-- A matrix annihilated on the right by `G = B·Bᵀ` is annihilated by `B`:
the null space of `B·Bᵀ` is contained in the null space of `Bᵀ` (stated here
in row form). -/
theorem null_G_null_B {n m k : ℕ} (B : Matrix (Fin n) (Fin m) ℝ)
    (M : Matrix (Fin k) (Fin n) ℝ) (h : M * (B * Bᵀ) = 0) : M * B = 0 := by
  apply self_mul_transpose_zero
  have hexp : (M * B) * (M * B)ᵀ = (M * (B * Bᵀ)) * Mᵀ := by
    rw [Matrix.transpose_mul]
    simp only [Matrix.mul_assoc]
  rw [hexp, h, Matrix.zero_mul]

theorem G_Ginv_B {n m : ℕ} (B : Matrix (Fin n) (Fin m) ℝ) {evals : Fin n → ℝ}
    {P : Matrix (Fin n) (Fin n) ℝ} (hdec : IsEigenDecomp (B * Bᵀ) evals P)
    (hgap : ∀ i, evals i = 0 ∨ invThresh < |evals i|) :
    (B * Bᵀ) * (symmMatInv evals P * B) = B := by
  have h0 : ((B * Bᵀ) * symmMatInv evals P - 1) * (B * Bᵀ) = 0 := by
    rw [Matrix.sub_mul, Matrix.one_mul, Matrix.mul_assoc, G_Ginv_G B hdec hgap, sub_self]
  have h1 := null_G_null_B B _ h0
  rw [Matrix.sub_mul, Matrix.one_mul, sub_eq_zero, Matrix.mul_assoc] at h1
  exact h1

theorem Bt_Ginv_G {n m : ℕ} (B : Matrix (Fin n) (Fin m) ℝ) {evals : Fin n → ℝ}
    {P : Matrix (Fin n) (Fin n) ℝ} (hdec : IsEigenDecomp (B * Bᵀ) evals P)
    (hgap : ∀ i, evals i = 0 ∨ invThresh < |evals i|) :
    Bᵀ * (symmMatInv evals P * (B * Bᵀ)) = Bᵀ := by
  have h := G_Ginv_B B hdec hgap
  have ht := congrArg Matrix.transpose h
  rw [Matrix.transpose_mul, Matrix.transpose_mul, symmMatInv_symm,
    Matrix.transpose_mul, Matrix.transpose_transpose] at ht
  simp only [Matrix.mul_assoc] at ht ⊢
  exact ht

/-- C4: with the eigen-threshold cleanly separating zero eigenvalues from the
retained ones, the reverse transform `gx2 = Bᵀ · gq` recovers `gx` exactly
when `gx` lies in the span of the columns of `Bᵀ` (the row space of `B`);
in general `gx2` lies in that span, the residual `gx - gx2` is killed by `B`
(a null-space component) and is orthogonal to the whole span — i.e. `gx2` is
the orthogonal projection of `gx` onto it. -/
theorem gradient_roundtrip {n m : ℕ} (B : Matrix (Fin n) (Fin m) ℝ) (evals : Fin n → ℝ)
    (P : Matrix (Fin n) (Fin n) ℝ) (gx : Fin m → ℝ)
    (hdec : IsEigenDecomp (B * Bᵀ) evals P)
    (hgap : ∀ i, evals i = 0 ∨ invThresh < |evals i|) :
    ((∃ y, gx = Bᵀ *ᵥ y) → gx2 B evals P gx = gx) ∧
    (∃ y, gx2 B evals P gx = Bᵀ *ᵥ y) ∧
    B *ᵥ (gx - gx2 B evals P gx) = 0 ∧
    (∀ y, (gx - gx2 B evals P gx) ⬝ᵥ (Bᵀ *ᵥ y) = 0) := by
  have hB2 : B *ᵥ gx2 B evals P gx = B *ᵥ gx := by
    unfold gx2 gq
    rw [Matrix.mulVec_mulVec, Matrix.mulVec_mulVec, Matrix.mulVec_mulVec,
      Matrix.mul_assoc, G_Ginv_B B hdec hgap]
  have hnull : B *ᵥ (gx - gx2 B evals P gx) = 0 := by
    rw [Matrix.mulVec_sub, hB2, sub_self]
  refine ⟨?_, ⟨gq B evals P gx, rfl⟩, hnull, ?_⟩
  · rintro ⟨y, rfl⟩
    unfold gx2 gq
    rw [Matrix.mulVec_mulVec, Matrix.mulVec_mulVec, Matrix.mulVec_mulVec]
    have hkey := Bt_Ginv_G B hdec hgap
    simp only [Matrix.mul_assoc] at hkey ⊢
    rw [hkey]
  · intro y
    rw [Matrix.dotProduct_mulVec, Matrix.vecMul_transpose, hnull, Matrix.zero_dotProduct]

/-- Witness for C4: a gradient lying in the row space of `B` is recovered
exactly by the round trip. -/
theorem gradient_roundtrip_witness :
    gx2 !![(1 : ℝ), 0, 0] ![1] 1 ![1, 0, 0] = ![1, 0, 0] := by
  have hdec : IsEigenDecomp (!![(1 : ℝ), 0, 0] * (!![(1 : ℝ), 0, 0])ᵀ) ![1] 1 := by
    refine ⟨?_, by simp, by simp⟩
    rw [Matrix.transpose_one, Matrix.one_mul, Matrix.mul_one]
    ext i j
    fin_cases i
    fin_cases j
    simp [Matrix.mul_apply, Matrix.transpose_apply, Fin.sum_univ_three, Matrix.diagonal,
      Matrix.vecHead, Matrix.vecTail]
  have hgap : ∀ i : Fin 1, (![1] : Fin 1 → ℝ) i = 0 ∨ invThresh < |(![1] : Fin 1 → ℝ) i| := by
    intro i
    right
    have h1 : (![1] : Fin 1 → ℝ) i = 1 := by
      fin_cases i
      rfl
    rw [h1]
    unfold invThresh
    norm_num
  refine (gradient_roundtrip _ _ _ _ hdec hgap).1 ⟨![1], ?_⟩
  funext c
  fin_cases c <;>
    simp [Matrix.mulVec, Matrix.dotProduct, Fin.sum_univ_one, Matrix.transpose_apply]

/-! ## The two-atom scenario: C8 -/

theorem v3dDist_sq (a b : Fin 3 → ℝ) :
    v3dDist a b ^ 2 = ∑ c : Fin 3, (a c - b c) ^ 2 := by
  unfold v3dDist
  exact Real.sq_sqrt (Finset.sum_nonneg fun c _ => sq_nonneg _)

theorem v3dDist_pos {a b : Fin 3 → ℝ} (hne : a ≠ b) : 0 < v3dDist a b := by
  unfold v3dDist
  rw [Real.sqrt_pos]
  obtain ⟨c, hc⟩ := Function.ne_iff.mp hne
  refine Finset.sum_pos' (fun d _ => sq_nonneg _) ⟨c, Finset.mem_univ c, ?_⟩
  exact pow_two_pos_of_ne_zero (sub_ne_zero.mpr hc)

theorem twoAtom_catalog (C : ℕ → ℕ → Prop) [DecidableRel C]
    (ang : ℕ → ℕ → ℕ → Prop) [∀ i j k, Decidable (ang i j k)]
    (hC : C 0 1) (h11 : ¬ C 1 1) :
    buildIntcos 2 C ang = [Intco.stre 0 1] := by
  have hcomb : combPairs 2 = [(0, 1)] := by decide
  have hperm : permPairs 2 = [(0, 1), (1, 0)] := by decide
  have hk0 : ((List.range 2).filter fun k => 0 < k) = [1] := by decide
  have hk1 : ((List.range 2).filter fun k => 1 < k) = [] := by decide
  unfold buildIntcos buildStretches
  rw [hcomb, hperm]
  simp only [List.foldl, hC, h11, if_true, if_false, ite_true, ite_false, ite_self,
    eq_self_iff_true, not_false_iff, hk0, hk1, addIfNew, List.any_nil, List.any_cons,
    List.nil_append, Bool.false_eq_true, icEq]

theorem geomH2_dist : v3dDist (geomH2 0) (geomH2 1) = 0.8 := by
  have hsum : (∑ c : Fin 3, (geomH2 0 c - geomH2 1 c) ^ 2) = 0.64 := by
    rw [Fin.sum_univ_three]
    norm_num [geomH2]
  unfold v3dDist
  rw [hsum, show (0.64 : ℝ) = 0.8 ^ 2 by norm_num,
    Real.sqrt_sq (by norm_num : (0 : ℝ) ≤ 0.8)]

theorem geomH2_row0 (c : Fin 3) : streRow geomH2 0 1 0 c = ![(-1 : ℝ), 0, 0] c := by
  unfold streRow
  rw [if_pos rfl, geomH2_dist]
  fin_cases c <;> norm_num [geomH2]

theorem geomH2_row1 (c : Fin 3) : streRow geomH2 0 1 1 c = ![(1 : ℝ), 0, 0] c := by
  unfold streRow
  rw [if_neg (by norm_num : (1 : ℕ) ≠ 0), if_pos rfl, geomH2_dist]
  fin_cases c <;> norm_num [geomH2]

/-- C8 (amended): for a two-atom system the builder produces the catalog
`[STRE(0,1)]` — exactly one Stretch whose value is the interatomic distance —
and the B-matrix has exactly one row; that row vanishes outside the six
columns of the two atoms, and on them consists of two opposite-signed unit
vectors along the bond axis (atom 0 carries `(x₀-x₁)/R`, atom 1 its
negation).  The claim's count of exactly 6 nonzero entries does not hold: for
an axis-aligned bond only 2 of those 6 entries are nonzero. -/
theorem twoAtom_Bmat_spec (C : ℕ → ℕ → Prop) [DecidableRel C]
    (ang : ℕ → ℕ → ℕ → Prop) [∀ i j k, Decidable (ang i j k)]
    (geom : ℕ → Fin 3 → ℝ) (hC : C 0 1) (h11 : ¬ C 1 1) (hne : geom 0 ≠ geom 1) :
    buildIntcos 2 C ang = [Intco.stre 0 1] ∧
    (buildIntcos 2 C ang).length = 1 ∧
    streQ geom 0 1 = v3dDist (geom 0) (geom 1) ∧
    (∀ p : Fin (([Intco.stre 0 1] : List Intco).length),
      Bmat geom [Intco.stre 0 1] p = streRow geom 0 1) ∧
    (∀ c, streRow geom 0 1 0 c = (geom 0 c - geom 1 c) / v3dDist (geom 0) (geom 1)) ∧
    (∀ c, streRow geom 0 1 1 c = -streRow geom 0 1 0 c) ∧
    (∀ a, 2 ≤ a → ∀ c, streRow geom 0 1 a c = 0) ∧
    (∑ c : Fin 3, streRow geom 0 1 0 c ^ 2 = 1) := by
  have hcat := twoAtom_catalog C ang hC h11
  have hR := v3dDist_pos hne
  refine ⟨hcat, by simp [hcat], rfl, ?_, ?_, ?_, ?_, ?_⟩
  · intro p
    show rowOf geom (([Intco.stre 0 1] : List Intco).get p) = streRow geom 0 1
    rw [List.get_singleton]
    rfl
  · intro c
    unfold streRow
    rw [if_pos rfl]
  · intro c
    unfold streRow
    rw [if_neg (by norm_num : (1 : ℕ) ≠ 0), if_pos rfl, if_pos rfl, ← neg_div, neg_sub]
  · intro a ha c
    unfold streRow
    rw [if_neg (by omega), if_neg (by omega)]
  · have hcalc : ∑ c : Fin 3, streRow geom 0 1 0 c ^ 2
        = (∑ c : Fin 3, (geom 0 c - geom 1 c) ^ 2) / v3dDist (geom 0) (geom 1) ^ 2 := by
      rw [Finset.sum_div]
      refine Finset.sum_congr rfl fun c _ => ?_
      unfold streRow
      rw [if_pos rfl, div_pow]
    rw [hcalc, ← v3dDist_sq, div_self (pow_ne_zero 2 (ne_of_gt hR))]

open Classical in
/-- Counterexample to C8 as stated: at the hydrogen diatomic of the scenario
(bond length 0.8 along the x-axis) the single B-matrix row equals
`[-1, 0, 0, 1, 0, 0]`, whose number of nonzero entries is 2, not 6. -/
theorem twoAtom_six_nonzero_false :
    ¬ ((Finset.univ.filter fun p : Fin 2 × Fin 3 =>
        streRow geomH2 0 1 (p.1 : ℕ) p.2 ≠ 0).card = 6) := by
  have hset : (Finset.univ.filter fun p : Fin 2 × Fin 3 =>
      streRow geomH2 0 1 (p.1 : ℕ) p.2 ≠ 0) =
      ({((0 : Fin 2), (0 : Fin 3)), ((1 : Fin 2), (0 : Fin 3))} : Finset (Fin 2 × Fin 3)) := by
    ext p
    obtain ⟨a, c⟩ := p
    rw [Finset.mem_filter]
    fin_cases a <;> fin_cases c <;>
      simp [geomH2_row0, geomH2_row1, Prod.ext_iff]
  rw [hset]
  decide

/-- Witness for the amended C8 at the scenario's hydrogen diatomic: bond
length 0.8 on the x-axis, catalog `[STRE(0,1)]`, value `0.8`, row
`[-1, 0, 0, 1, 0, 0]`. -/
theorem twoAtom_Bmat_spec_witness :
    buildIntcos 2 Cpair angAll = [Intco.stre 0 1] ∧
    streQ geomH2 0 1 = 0.8 ∧
    streRow geomH2 0 1 0 0 = -1 ∧ streRow geomH2 0 1 0 1 = 0 ∧ streRow geomH2 0 1 0 2 = 0 ∧
    streRow geomH2 0 1 1 0 = 1 ∧ streRow geomH2 0 1 1 1 = 0 ∧ streRow geomH2 0 1 1 2 = 0 := by
  have hne : geomH2 0 ≠ geomH2 1 := by
    intro h
    have h0 := congrFun h 0
    norm_num [geomH2] at h0
  have h11 : ¬ Cpair 1 1 := by
    rintro (⟨h1, h2⟩ | ⟨h1, h2⟩) <;> omega
  have h := twoAtom_Bmat_spec Cpair angAll geomH2 (Or.inl ⟨rfl, rfl⟩) h11 hne
  refine ⟨h.1, ?_, ?_, ?_, ?_, ?_, ?_, ?_⟩
  · rw [h.2.2.1, geomH2_dist]
  · simpa using geomH2_row0 0
  · simpa using geomH2_row0 1
  · simpa using geomH2_row0 2
  · simpa using geomH2_row1 0
  · simpa using geomH2_row1 1
  · simpa using geomH2_row1 2
